import Mathlib

/-!
Verification of the Tower of Hanoi animation program (`src/main.py`).

The development shallowly embeds the pure computational core of the
program: the recursive move generator `hanoi_moves`, the peg-layout
function `peg_positions`, disk construction (`Disk.make`, from
`Disk.__init__`), the net stack effect of `animate_move`
(pop from the source peg, append to the destination peg), the
horizontal traverse loop of `animate_move`, and the outer driver
counter update from `__main__`.

Machine integers are modelled as `ℤ`/`ℕ` (Python integers are
arbitrary precision, so no wrap-around is involved); Python's float
expression in `Disk.__init__` is modelled by exact rational
arithmetic with `Int.floor` for the `int(...)` truncation of a
nonnegative value; list stacks keep Python's orientation (index 0 is
the bottom of the stack, `pop` removes the last element, `append`
pushes at the end).
-/

/-- Configured minimum disk width (`DISK_MIN_WIDTH = 70`). -/
def DISK_MIN_WIDTH : ℕ := 70

/-- Configured maximum disk width (`DISK_MAX_WIDTH = 240`). -/
def DISK_MAX_WIDTH : ℕ := 240

/-- Configured disk height (`DISK_HEIGHT = 20`). -/
def DISK_HEIGHT : ℕ := 20

/-- The fixed disk colour palette (`DISK_COLORS`), 12 RGB triples. -/
def DISK_COLORS : List (ℕ × ℕ × ℕ) :=
  [(244, 67, 54), (33, 150, 243), (76, 175, 80), (255, 235, 59),
   (156, 39, 176), (255, 152, 0), (0, 188, 212), (121, 85, 72),
   (139, 195, 74), (63, 81, 181), (0, 150, 136), (205, 220, 57)]

/-- Horizontal speed in pixels per frame (`H_SPEED = 24`). -/
def H_SPEED : ℤ := 24

/-- A disk as built by `Disk.__init__`: a width, a height and a colour. -/
structure Disk where
  width : ℤ
  height : ℕ
  color : ℕ × ℕ × ℕ
deriving DecidableEq, Repr

/-- `Disk.__init__(size_index, total_disks)`:
`t = size_index / (total_disks - 1) if total_disks > 1 else 0`,
`width = int(DISK_MIN_WIDTH + t * (DISK_MAX_WIDTH - DISK_MIN_WIDTH))`
(the truncation `int` of this nonnegative value is `Int.floor`),
`height = DISK_HEIGHT`, and the colour is picked cyclically:
`DISK_COLORS[size_index % len(DISK_COLORS)]`. -/
def Disk.make (size_index total_disks : ℕ) : Disk :=
  let t : ℚ :=
    if 1 < total_disks then (size_index : ℚ) / ((total_disks : ℚ) - 1) else 0
  { width := ⌊(DISK_MIN_WIDTH : ℚ) + t * ((DISK_MAX_WIDTH : ℚ) - (DISK_MIN_WIDTH : ℚ))⌋
    height := DISK_HEIGHT
    color := DISK_COLORS.get
      ⟨size_index % DISK_COLORS.length, Nat.mod_lt _ (by decide)⟩ }

/-- `hanoi_moves(n, src, aux, dst)`: the recursive Tower of Hanoi move
generator; yields nothing for `n ≤ 0`, otherwise recursively solves
`n - 1` from `src` to `aux`, emits `(src, dst)`, then solves `n - 1`
from `aux` to `dst`.  The Python generator is index-agnostic, so the
peg identifiers are a type parameter; the materialised list
(`list(hanoi_moves(...))`) is the function value. -/
def hanoi_moves {α : Type} : ℕ → α → α → α → List (α × α)
  | 0, _, _, _ => []
  | n + 1, src, aux, dst =>
      hanoi_moves n src dst aux ++ (src, dst) :: hanoi_moves n aux src dst

/-- `peg_positions(width, margin, count)`:
`usable = width - 2*margin`, `spacing = usable // (count - 1)`,
result `[margin + i * spacing for i in range(count)]`. -/
def peg_positions (width margin count : ℕ) : List ℕ :=
  let usable := width - 2 * margin
  let spacing := usable / (count - 1)
  (List.range count).map (fun i => margin + i * spacing)

/-- The horizontal target of `animate_move`'s traverse phase:
`target_left_x = dst_center_x - disk.width // 2` (Python floor
division `//` is `Int.fdiv`). -/
def target_left_x (dst_center_x width : ℤ) : ℤ :=
  dst_center_x - Int.fdiv width 2

/-- The traverse loop of `animate_move`
(`while abs(x - target_left_x) > H_SPEED: ... x += direction * H_SPEED`),
returning the value of `x` when the loop exits together with the
number of iterations performed.  Each iteration moves `x` one
`H_SPEED` step towards the target
(`direction = 1 if target_left_x > x else -1`). -/
def traverseLoop (target : ℤ) (x : ℤ) : ℤ × ℕ :=
  if |x - target| > H_SPEED then
    let r := traverseLoop target (x + (if target > x then 1 else -1) * H_SPEED)
    (r.1, r.2 + 1)
  else
    (x, 0)
termination_by (x - target).natAbs
decreasing_by
  simp only [H_SPEED] at *
  rcases abs_cases (x - target) with ⟨he, -⟩ | ⟨he, -⟩ <;> split <;> omega

/-- The whole traverse phase: run the loop, then snap
(`x = target_left_x` right after the loop).  Returns the final `x`
and the loop's iteration count. -/
def traversePhase (target : ℤ) (x : ℤ) : ℤ × ℕ :=
  let r := traverseLoop target x
  (target, r.2)

/-- The net effect of `animate_move` on the peg stacks:
`disk = pegs[src_idx].stack.pop()` (fails on an empty stack — in
Python this raises `IndexError`), then after the animation frames
`pegs[dst_idx].stack.append(disk)`.  Stacks keep Python's
orientation: index 0 is the bottom, `pop` removes the last element,
`append` adds at the end.  Polymorphic in the stack element, used
both with `Disk` stacks (as in the program) and with abstract
disk-size stacks (for the simulated replay). -/
def moveDisk {α : Type} (pegs : Fin 3 → List α) (src dst : Fin 3) :
    Option (Fin 3 → List α) :=
  match (pegs src).getLast? with
  | none => none
  | some disk =>
      let popped : Fin 3 → List α :=
        fun i => if i = src then (pegs src).dropLast else pegs i
      some (fun i => if i = dst then popped i ++ [disk] else popped i)

/-- Legality monitor for one move on abstract disk-size stacks: the
source stack must be non-empty, and the popped size must be strictly
smaller than the destination's current top size (no disk is placed on
a strictly smaller disk).  The program never checks this at runtime;
it is the invariant the spec asserts of the generated sequence. -/
def legalMove (pegs : Fin 3 → List ℕ) (src dst : Fin 3) : Prop :=
  match (pegs src).getLast? with
  | none => False
  | some d =>
      match (pegs dst).getLast? with
      | none => True
      | some t => d < t

instance (pegs : Fin 3 → List ℕ) (src dst : Fin 3) :
    Decidable (legalMove pegs src dst) := by
  unfold legalMove
  rcases (pegs src).getLast? with _ | d
  · exact inferInstanceAs (Decidable False)
  · rcases (pegs dst).getLast? with _ | t
    · exact inferInstanceAs (Decidable True)
    · exact inferInstanceAs (Decidable (d < t))

/-- Replay a move list against abstract disk-size stacks by
pop-from-source / push-to-destination, with no legality checking
(exactly what `animate_move` does to the stacks); `none` only when a
pop hits an empty stack. -/
def replayMoves (pegs : Fin 3 → List ℕ) :
    List (Fin 3 × Fin 3) → Option (Fin 3 → List ℕ)
  | [] => some pegs
  | (src, dst) :: rest =>
      match moveDisk pegs src dst with
      | none => none
      | some pegs2 => replayMoves pegs2 rest

/-- Replay with the legality monitor: each step must satisfy
`legalMove` before it is applied.  Success certifies that no pop hit
an empty stack and no disk was ever placed on a strictly smaller
one. -/
def replayLegal (pegs : Fin 3 → List ℕ) :
    List (Fin 3 × Fin 3) → Option (Fin 3 → List ℕ)
  | [] => some pegs
  | (src, dst) :: rest =>
      if legalMove pegs src dst then
        match moveDisk pegs src dst with
        | none => none
        | some pegs2 => replayLegal pegs2 rest
      else none

/-- The stack of abstract disk sizes built on peg 0 at run start
(`for i in range(num_disks, 0, -1): pegs[0].stack.append(Disk(i-1, ...))`):
bottom-first list of size indices `[n-1, n-2, ..., 1, 0]`. -/
def ramp (n : ℕ) : List ℕ :=
  (List.range n).reverse

/-- The initial simulated scene state for `n` disks: all sizes on
peg 0 (largest at the bottom), pegs 1 and 2 empty. -/
def initState (n : ℕ) : Fin 3 → List ℕ :=
  fun i => if i = 0 then ramp n else []

/-- The effective maximum disk count from `__main__`:
`max_n = max(1, min(args.num_disks, len(DISK_COLORS) * 2))`. -/
def effective_max (num_disks : ℤ) : ℤ :=
  max 1 (min num_disks ((DISK_COLORS.length : ℤ) * 2))

/-- The outer driver counter update from `__main__`
(`n += 1; n %= max_n + 1`): the disk count used by the next run. -/
def nextN (max_n n : ℕ) : ℕ :=
  (n + 1) % (max_n + 1)

/-- A concrete two-disk scene used to instantiate the frame theorem
about `animate_move`: the widest and narrowest configured disks
stacked on peg 0 (widths 240 and 70, the configured maximum and
minimum), pegs 1 and 2 empty. -/
def demoPegs : Fin 3 → List Disk :=
  fun i =>
    if i = 0 then
      [⟨240, 20, (244, 67, 54)⟩, ⟨70, 20, (33, 150, 243)⟩]
    else []

/-- A simulated scene state is a valid Hanoi state when every peg's
stack is strictly decreasing from bottom (index 0) to top: a disk
only ever rests on a strictly larger one. -/
def sortedState (s : Fin 3 → List ℕ) : Prop :=
  ∀ i, List.Chain' (· > ·) (s i)

/-!  General lemmas about the embedded definitions. -/

theorem hanoi_moves_length {α : Type} (n : ℕ) (src aux dst : α) :
    (hanoi_moves n src aux dst).length = 2 ^ n - 1 := by
  induction n generalizing src aux dst with
  | zero => simp [hanoi_moves]
  | succ n ih =>
      have h1 := ih src dst aux
      have h2 := ih aux src dst
      have hpow : 1 ≤ 2 ^ n := Nat.one_le_two_pow
      simp only [hanoi_moves, List.length_append, List.length_cons, h1, h2,
        pow_succ]
      omega

theorem ramp_succ (n : ℕ) : ramp (n + 1) = n :: ramp n := by
  simp [ramp, List.range_succ]

theorem ramp_length (n : ℕ) : (ramp n).length = n := by
  simp [ramp]

theorem ramp_sorted (n : ℕ) : List.Chain' (· > ·) (ramp n) := by
  induction n with
  | zero => simp [ramp]
  | succ n ih =>
      rcases n with _ | m
      · simp [ramp, List.range_succ]
      · rw [ramp_succ, ramp_succ]
        rw [ramp_succ] at ih
        exact List.chain'_cons.mpr ⟨by omega, ih⟩

theorem ramp_mem_lt (n : ℕ) : ∀ x ∈ ramp n, x < n := by
  intro x hx
  simpa [ramp] using List.mem_range.mp (List.mem_reverse.mp hx)

theorem fin3_cover (a b c i : Fin 3) (hab : a ≠ b) (hac : a ≠ c)
    (hbc : b ≠ c) : i = a ∨ i = b ∨ i = c := by
  revert a b c i
  decide

theorem Disk.width_eq (i n : ℕ) (h : 1 < n) :
    (Disk.make i n).width = 70 + ((170 * i) / (n - 1) : ℕ) := by
  unfold Disk.make
  simp only [if_pos h]
  rw [show (DISK_MIN_WIDTH : ℚ) +
        (i : ℚ) / ((n : ℚ) - 1) * ((DISK_MAX_WIDTH : ℚ) - (DISK_MIN_WIDTH : ℚ)) =
        ((170 * i : ℕ) : ℚ) / ((n - 1 : ℕ) : ℚ) + ((70 : ℤ) : ℚ) from ?_]
  · rw [Int.floor_add_int, Rat.floor_natCast_div_natCast]
    push_cast
    ring
  · simp only [DISK_MIN_WIDTH, DISK_MAX_WIDTH]
    push_cast [Nat.cast_sub (le_of_lt h)]
    ring

/-- C1: for every `n ≥ 0` and any three distinct peg indices in
`[0, 2]`, the move generator `hanoi_moves` produces a list of exactly
`2 ^ n - 1` moves. -/
theorem hanoi_moves_count (n : ℕ) (src aux dst : ℕ)
    (_h1 : src ≠ aux) (_h2 : src ≠ dst) (_h3 : aux ≠ dst)
    (_hs : src < 3) (_ha : aux < 3) (_hd : dst < 3) :
    (hanoi_moves n src aux dst).length = 2 ^ n - 1 :=
  hanoi_moves_length n src aux dst

/-- Witness for C1: the instance `n = 3`, pegs `0, 1, 2`. -/
theorem hanoi_moves_count_witness :
    (hanoi_moves 3 (0 : ℕ) 1 2).length = 2 ^ 3 - 1 :=
  hanoi_moves_count 3 0 1 2 (by decide) (by decide) (by decide)
    (by decide) (by decide) (by decide)

/-- C2: for `n = 3` with source peg `0`, auxiliary peg `1` and
destination peg `2`, the generator yields exactly the seven moves
`(0,2),(0,1),(2,1),(0,2),(1,0),(1,2),(0,2)`, so in particular seven
moves whose first is `(0,2)`. -/
theorem hanoi_moves_three :
    hanoi_moves 3 (0 : ℕ) 1 2 =
      [(0, 2), (0, 1), (2, 1), (0, 2), (1, 0), (1, 2), (0, 2)] ∧
    (hanoi_moves 3 (0 : ℕ) 1 2).length = 7 ∧
    (hanoi_moves 3 (0 : ℕ) 1 2).head? = some (0, 2) := by
  decide

/-- C9: `peg_positions 1000 100 3` is `[100, 500, 900]`: the first
coordinate is the margin, the last is `width - margin`, the middle is
exactly halfway between them, and peg `i` sits at
`margin + i * spacing` with `spacing = (width - 2 * margin) / (count - 1)`. -/
theorem peg_positions_spec :
    peg_positions 1000 100 3 = [100, 500, 900] ∧
    (peg_positions 1000 100 3).head? = some 100 ∧
    (peg_positions 1000 100 3).getLast? = some (1000 - 100) ∧
    500 - 100 = 900 - 500 ∧
    ∀ i < 3, (peg_positions 1000 100 3).get? i =
      some (100 + i * ((1000 - 2 * 100) / (3 - 1))) := by
  decide

/-- C7 counterexample: with the configured maximum bound `5` (the
program's default request of 5 disks), the run after the
`n = max_n = 5` run uses `(5 + 1) % (5 + 1) = 0` disks, not `1`. -/
theorem nextN_after_max_ne_one : nextN 5 5 = 0 ∧ nextN 5 5 ≠ 1 := by
  decide

/-- C7 amended: after the run with `n` equal to the maximum bound
`max_n ≥ 1`, the counter wraps to `0` (a degenerate run with zero
disks and zero moves); the run after that uses `1` disk, and the
counter never exceeds `max_n`. -/
theorem nextN_cycle (m : ℕ) (hm : 1 ≤ m) :
    nextN m m = 0 ∧ nextN m 0 = 1 ∧ ∀ k ≤ m, nextN m k ≤ m := by
  refine ⟨Nat.mod_self (m + 1), Nat.mod_eq_of_lt (by omega), ?_⟩
  intro k _
  exact Nat.lt_succ_iff.mp (Nat.mod_lt _ (by omega))

/-- Witness for the amended C7: the default bound `max_n = 5`. -/
theorem nextN_cycle_witness :
    nextN 5 5 = 0 ∧ nextN 5 0 = 1 ∧ ∀ k ≤ 5, nextN 5 k ≤ 5 :=
  nextN_cycle 5 (by decide)

/-- C8: the effective maximum disk count clamps the request into
`[1, 2 × palette_size]`: any request below `1` yields `1`, and any
request above `2 × len(DISK_COLORS) = 24` yields exactly `24`. -/
theorem effective_max_clamp (nd : ℤ) :
    (nd < 1 → effective_max nd = 1) ∧
    ((DISK_COLORS.length : ℤ) * 2 < nd →
      effective_max nd = (DISK_COLORS.length : ℤ) * 2) := by
  have hlen : DISK_COLORS.length = 12 := by decide
  simp only [effective_max, hlen]
  constructor <;> intro h <;> omega

/-- Witness for C8: requesting `0` disks yields `1`; requesting `100`
yields `24 = 2 × 12`. -/
theorem effective_max_clamp_witness :
    effective_max 0 = 1 ∧
    effective_max 100 = (DISK_COLORS.length : ℤ) * 2 :=
  ⟨(effective_max_clamp 0).1 (by decide),
   (effective_max_clamp 100).2 (by decide)⟩

/-- C6 counterexample: disk width is NOT strictly increasing in
`size_index` for every `total_disks > 1`.  With `total_disks = 172`
the interpolation step `170 / 171` is below one pixel, so
`size_index = 0` and `size_index = 1` both get truncated width `70`. -/
theorem disk_width_not_strictmono :
    ¬ (∀ n : ℕ, 1 < n → ∀ i j : ℕ, i < j → j < n →
        (Disk.make i n).width < (Disk.make j n).width) := by
  intro h
  have h2 := h 172 (by norm_num) 0 1 (by norm_num) (by norm_num)
  rw [Disk.width_eq 0 172 (by norm_num), Disk.width_eq 1 172 (by norm_num)] at h2
  norm_num at h2

/-- C6 amended: for `total_disks = 5`, `size_index = 0` yields exactly
the configured minimum width and `size_index = 4` exactly the
configured maximum width; and width is strictly increasing in
`size_index` for every fixed `total_disks` with
`1 < total_disks ≤ 171` (which covers every disk count the program
can use, since the driver clamps it to at most `24`).  For
`total_disks ≥ 172` the linear interpolation step falls below one
pixel and the truncation collapses neighbouring widths. -/
theorem disk_width_spec :
    (Disk.make 0 5).width = (DISK_MIN_WIDTH : ℤ) ∧
    (Disk.make 4 5).width = (DISK_MAX_WIDTH : ℤ) ∧
    ∀ n : ℕ, 1 < n → n ≤ 171 → ∀ i j : ℕ, i < j → j < n →
      (Disk.make i n).width < (Disk.make j n).width := by
  refine ⟨?_, ?_, ?_⟩
  · rw [Disk.width_eq 0 5 (by norm_num)]
    norm_num [DISK_MIN_WIDTH]
  · rw [Disk.width_eq 4 5 (by norm_num)]
    norm_num [DISK_MAX_WIDTH]
  · intro n h1 h171 i j hij hjn
    rw [Disk.width_eq i n h1, Disk.width_eq j n h1]
    have h0 : 0 < n - 1 := by omega
    have hle : (170 * i + (n - 1)) / (n - 1) ≤ (170 * j) / (n - 1) :=
      Nat.div_le_div_right (by omega)
    rw [Nat.add_div_right _ h0] at hle
    omega

/-- Witness for the amended C6: widths for `size_index` 1 and 3 at
`total_disks = 5`. -/
theorem disk_width_spec_witness :
    (Disk.make 1 5).width < (Disk.make 3 5).width :=
  disk_width_spec.2.2 5 (by decide) (by decide) 1 3 (by decide) (by decide)

theorem traverseLoop_exit (target x : ℤ) :
    |(traverseLoop target x).1 - target| ≤ H_SPEED := by
  induction x using traverseLoop.induct target with
  | case1 x h ih =>
      rw [traverseLoop, if_pos h]
      exact ih
  | case2 x h =>
      rw [traverseLoop, if_neg h]
      simpa using le_of_not_lt h

theorem traverseLoop_iter_le (target x : ℤ) :
    (traverseLoop target x).2 ≤ (x - target).natAbs := by
  induction x using traverseLoop.induct target with
  | case1 x h ih =>
      rw [traverseLoop, if_pos h]
      show (traverseLoop target
        (x + (if target > x then 1 else -1) * H_SPEED)).2 + 1 ≤ (x - target).natAbs
      simp only [H_SPEED] at h
      rcases abs_cases (x - target) with ⟨he, -⟩ | ⟨he, -⟩ <;>
        by_cases hd : target > x
      · simp only [dite_eq_ite, if_pos hd, H_SPEED] at ih ⊢; omega
      · simp only [dite_eq_ite, if_neg hd, H_SPEED] at ih ⊢; omega
      · simp only [dite_eq_ite, if_pos hd, H_SPEED] at ih ⊢; omega
      · simp only [dite_eq_ite, if_neg hd, H_SPEED] at ih ⊢; omega
  | case2 x h =>
      rw [traverseLoop, if_neg h]
      simp

theorem traverseLoop_zero (target x : ℤ) (h : |x - target| ≤ H_SPEED) :
    traverseLoop target x = (x, 0) := by
  rw [traverseLoop, if_neg (not_lt.mpr h)]

/-- C5: the traverse loop of `animate_move` terminates for every
integer start and target (its iteration count is bounded by the
initial distance, and the loop's exit condition is
`remaining distance ≤ one H_SPEED step`); it runs zero iterations
when the start is already within one speed step of the target; and
after the loop the snap assignment leaves the disk's x coordinate
exactly at the target x, the destination peg's centre minus half the
disk's width. -/
theorem traverse_terminates_and_snaps (x dst_center_x width : ℤ) :
    (traversePhase (target_left_x dst_center_x width) x).1 =
      dst_center_x - Int.fdiv width 2 ∧
    |(traverseLoop (target_left_x dst_center_x width) x).1 -
      target_left_x dst_center_x width| ≤ H_SPEED ∧
    (traversePhase (target_left_x dst_center_x width) x).2 ≤
      (x - target_left_x dst_center_x width).natAbs ∧
    (|x - target_left_x dst_center_x width| ≤ H_SPEED →
      (traversePhase (target_left_x dst_center_x width) x).2 = 0) := by
  refine ⟨rfl, traverseLoop_exit _ x, traverseLoop_iter_le _ x, fun h => ?_⟩
  show (traverseLoop (target_left_x dst_center_x width) x).2 = 0
  rw [traverseLoop_zero _ x h]

/-- Witness for C5: moving from `x = 50` towards the peg centred at
`100` with a disk of width `80` (target `100 - 40 = 60`, ten pixels
away, within one `H_SPEED` step, so zero loop iterations). -/
theorem traverse_terminates_and_snaps_witness :
    (traversePhase (target_left_x 100 80) 50).1 = 100 - Int.fdiv 80 2 ∧
    |(traverseLoop (target_left_x 100 80) 50).1 - target_left_x 100 80| ≤ H_SPEED ∧
    (traversePhase (target_left_x 100 80) 50).2 ≤ (50 - target_left_x 100 80).natAbs ∧
    (traversePhase (target_left_x 100 80) 50).2 = 0 :=
  have h := traverse_terminates_and_snaps 50 100 80
  ⟨h.1, h.2.1, h.2.2.1, h.2.2.2 (by decide)⟩

/-- C10: whenever `animate_move` is invoked with a non-empty source
stack and distinct source and destination indices, its net effect on
the stacks is exactly: the source peg loses its top (last) disk, the
destination peg gains that same disk on top, the third peg is
untouched, and the moved disk itself — in particular its `width`,
`height` and `color` fields — is unchanged (the very disk popped is
the disk appended). -/
theorem animate_move_frame (pegs : Fin 3 → List Disk) (src dst : Fin 3)
    (hne : pegs src ≠ []) (hsd : src ≠ dst) :
    ∃ d s2, (pegs src).getLast? = some d ∧
      moveDisk pegs src dst = some s2 ∧
      s2 src = (pegs src).dropLast ∧
      s2 dst = pegs dst ++ [d] ∧
      (∀ k, k ≠ src → k ≠ dst → s2 k = pegs k) ∧
      (s2 dst).getLast? = some d ∧
      ∀ d2, (s2 dst).getLast? = some d2 →
        d2.width = d.width ∧ d2.height = d.height ∧ d2.color = d.color := by
  rcases (pegs src).eq_nil_or_concat' with hnil | ⟨A, d, hAd⟩
  · exact absurd hnil hne
  · have hgl : (pegs src).getLast? = some d := by
      rw [hAd]; exact List.getLast?_concat A
    refine ⟨d, ?_⟩
    unfold moveDisk
    rw [hgl]
    have hds : dst ≠ src := Ne.symm hsd
    refine ⟨fun i =>
        if i = dst then (if i = src then (pegs src).dropLast else pegs i) ++ [d]
        else if i = src then (pegs src).dropLast else pegs i,
      rfl, rfl, ?_, ?_, ?_, ?_, ?_⟩
    · simp [hsd]
    · simp [hds]
    · intro k hks hkd
      simp [hks, hkd]
    · simp [hds, List.getLast?_concat]
    · intro d2 hd2
      simp only [if_pos, if_neg hds, List.getLast?_concat,
        Option.some_inj] at hd2
      rw [← hd2]
      exact ⟨rfl, rfl, rfl⟩

/-- Witness for C10: moving the top disk of the two-disk demo scene
from peg 0 to peg 2. -/
theorem animate_move_frame_witness :
    ∃ d s2, (demoPegs 0).getLast? = some d ∧
      moveDisk demoPegs 0 2 = some s2 ∧
      s2 0 = (demoPegs 0).dropLast ∧
      s2 2 = demoPegs 2 ++ [d] ∧
      (∀ k, k ≠ 0 → k ≠ 2 → s2 k = demoPegs k) ∧
      (s2 2).getLast? = some d ∧
      ∀ d2, (s2 2).getLast? = some d2 →
        d2.width = d.width ∧ d2.height = d.height ∧ d2.color = d.color :=
  animate_move_frame demoPegs 0 2 (by decide) (by decide)

theorem legalMove_iff (pegs : Fin 3 → List ℕ) (src dst : Fin 3) :
    legalMove pegs src dst ↔
      ∃ d, (pegs src).getLast? = some d ∧ ∀ t ∈ (pegs dst).getLast?, d < t := by
  unfold legalMove
  cases h1 : (pegs src).getLast? with
  | none => simp
  | some d =>
      cases h2 : (pegs dst).getLast? with
      | none => simp
      | some t => simp

theorem replayLegal_append (s : Fin 3 → List ℕ) (l1 l2 : List (Fin 3 × Fin 3)) :
    replayLegal s (l1 ++ l2) =
      (replayLegal s l1).bind (fun s2 => replayLegal s2 l2) := by
  induction l1 generalizing s with
  | nil => simp [replayLegal]
  | cons m rest ih =>
      rcases m with ⟨a, b⟩
      simp only [List.cons_append, replayLegal]
      by_cases hl : legalMove s a b
      · rw [if_pos hl, if_pos hl]
        cases hmv : moveDisk s a b with
        | none => simp
        | some s2 => simpa using ih s2
      · rw [if_neg hl, if_neg hl]
        simp

theorem hanoi_replay (n : ℕ) (a b c : Fin 3) (hab : a ≠ b) (hac : a ≠ c)
    (hbc : b ≠ c) (s : Fin 3 → List ℕ) (A B C : List ℕ)
    (hA : s a = A ++ ramp n) (hB : s b = B) (hC : s c = C)
    (hAn : ∀ x ∈ A, n ≤ x) (hBn : ∀ x ∈ B, n ≤ x) (hCn : ∀ x ∈ C, n ≤ x) :
    replayLegal s (hanoi_moves n a b c) =
      some (fun i => if i = a then A else if i = b then B else C ++ ramp n) := by
  induction n generalizing a b c s A B C with
  | zero =>
      simp only [hanoi_moves, replayLegal]
      congr 1
      funext i
      rcases fin3_cover a b c i hab hac hbc with rfl | rfl | rfl
      · simpa [ramp] using hA
      · simp [hB, Ne.symm hab]
      · simp [hC, Ne.symm hac, Ne.symm hbc, ramp]
  | succ n ih =>
      have hstep : hanoi_moves (n + 1) a b c =
          hanoi_moves n a c b ++ ((a, c) :: hanoi_moves n b a c) := rfl
      have hA1 : s a = (A ++ [n]) ++ ramp n := by
        rw [hA, ramp_succ, List.append_assoc]
        rfl
      have hAn1 : ∀ x ∈ A ++ [n], n ≤ x := by
        intro x hx
        rcases List.mem_append.mp hx with h | h
        · exact Nat.le_of_succ_le (hAn x h)
        · simp only [List.mem_singleton] at h
          omega
      have hBn1 : ∀ x ∈ B, n ≤ x := fun x hx => Nat.le_of_succ_le (hBn x hx)
      have hCn1 : ∀ x ∈ C, n ≤ x := fun x hx => Nat.le_of_succ_le (hCn x hx)
      have h1 := ih a c b hac hab (Ne.symm hbc) s (A ++ [n]) C B hA1 hC hB
        hAn1 hCn1 hBn1
      rw [hstep, replayLegal_append, h1]
      show replayLegal
        (fun i => if i = a then A ++ [n] else if i = c then C else B ++ ramp n)
        ((a, c) :: hanoi_moves n b a c) = _
      set s1 : Fin 3 → List ℕ :=
        fun i => if i = a then A ++ [n] else if i = c then C else B ++ ramp n
        with hs1def
      have hs1a : s1 a = A ++ [n] := by simp [hs1def]
      have hs1c : s1 c = C := by simp [hs1def, Ne.symm hac]
      have hs1b : s1 b = B ++ ramp n := by simp [hs1def, Ne.symm hab, hbc]
      have hga : (s1 a).getLast? = some n := by
        rw [hs1a]; exact List.getLast?_concat A
      have hleg : legalMove s1 a c := by
        rw [legalMove_iff]
        refine ⟨n, hga, ?_⟩
        rw [hs1c]
        intro t ht
        have := hCn t (List.mem_of_mem_getLast? ht)
        omega
      have hmv : moveDisk s1 a c = some (fun i =>
          if i = c then (if i = a then (s1 a).dropLast else s1 i) ++ [n]
          else if i = a then (s1 a).dropLast else s1 i) := by
        unfold moveDisk
        rw [hga]
      simp only [replayLegal, if_pos hleg, hmv]
      set s2 : Fin 3 → List ℕ := fun i =>
          if i = c then (if i = a then (s1 a).dropLast else s1 i) ++ [n]
          else if i = a then (s1 a).dropLast else s1 i with hs2def
      have hs2b : s2 b = B ++ ramp n := by
        simp [hs2def, hbc, Ne.symm hab, hs1b]
      have hs2a : s2 a = A := by
        simp [hs2def, hac, hs1a, List.dropLast_concat]
      have hs2c : s2 c = C ++ [n] := by
        simp [hs2def, Ne.symm hac, hs1c]
      have hCn2 : ∀ x ∈ C ++ [n], n ≤ x := by
        intro x hx
        rcases List.mem_append.mp hx with h | h
        · exact Nat.le_of_succ_le (hCn x h)
        · simp only [List.mem_singleton] at h
          omega
      have hAn0 : ∀ x ∈ A, n ≤ x := fun x hx => Nat.le_of_succ_le (hAn x hx)
      have h2 := ih b a c (Ne.symm hab) hbc hac s2 B A (C ++ [n]) hs2b hs2a hs2c
        hBn1 hAn0 hCn2
      rw [h2]
      congr 1
      funext i
      rcases fin3_cover a b c i hab hac hbc with rfl | rfl | rfl
      · simp [hab]
      · simp [Ne.symm hab]
      · simp [Ne.symm hbc, Ne.symm hac, ramp_succ]

theorem moveDisk_sorted (s : Fin 3 → List ℕ) (a b : Fin 3)
    (s2 : Fin 3 → List ℕ) (hleg : legalMove s a b)
    (hmv : moveDisk s a b = some s2)
    (hs : ∀ i, List.Chain' (· > ·) (s i)) :
    ∀ i, List.Chain' (· > ·) (s2 i) := by
  obtain ⟨d, hd, hlt⟩ := (legalMove_iff s a b).mp hleg
  rcases (s a).eq_nil_or_concat' with hnil | ⟨A, d', hAd⟩
  · rw [hnil] at hd; simp at hd
  · have hd' : d' = d := by
      rw [hAd, List.getLast?_concat] at hd
      exact Option.some_inj.mp hd
    rw [hd'] at hAd
    unfold moveDisk at hmv
    rw [hd] at hmv
    have hs2 : s2 = fun i =>
        if i = b then (if i = a then (s a).dropLast else s i) ++ [d]
        else if i = a then (s a).dropLast else s i :=
      (Option.some_inj.mp hmv).symm
    have hdrop : List.Chain' (· > ·) (s a).dropLast := by
      have := hs a
      rw [hAd] at this ⊢
      rw [List.dropLast_concat]
      exact (List.chain'_append.mp this).1
    intro i
    rw [hs2]
    by_cases hib : i = b
    · by_cases hia : i = a
      · exfalso
        have hbd : (s b).getLast? = some d := by
          rw [← hib, hia]; exact hd
        have := hlt d hbd
        omega
      · simp only [if_pos hib, if_neg hia]
        rw [List.chain'_append]
        refine ⟨hs i, List.chain'_singleton d, ?_⟩
        intro x hx y hy
        simp only [List.head?_cons, Option.mem_def, Option.some_inj] at hy
        subst hy
        exact hlt x (by rw [← hib]; exact hx)
    · by_cases hia : i = a
      · simp only [if_neg hib, if_pos hia]
        exact hdrop
      · simp only [if_neg hib, if_neg hia]
        exact hs i

theorem replayLegal_sorted (l : List (Fin 3 × Fin 3)) (s f : Fin 3 → List ℕ)
    (hs : ∀ i, List.Chain' (· > ·) (s i))
    (h : replayLegal s l = some f) :
    ∀ i, List.Chain' (· > ·) (f i) := by
  induction l generalizing s with
  | nil =>
      simp only [replayLegal, Option.some_inj] at h
      rw [← h]; exact hs
  | cons m rest ih =>
      rcases m with ⟨a, b⟩
      simp only [replayLegal] at h
      by_cases hl : legalMove s a b
      · rw [if_pos hl] at h
        cases hmv : moveDisk s a b with
        | none => rw [hmv] at h; simp at h
        | some s2 =>
            rw [hmv] at h
            exact ih s2 (moveDisk_sorted s a b s2 hl hmv hs) h
      · rw [if_neg hl] at h
        simp at h

theorem replayMoves_eq_of_legal (l : List (Fin 3 × Fin 3))
    (s f : Fin 3 → List ℕ) (h : replayLegal s l = some f) :
    replayMoves s l = some f := by
  induction l generalizing s with
  | nil => exact h
  | cons m rest ih =>
      rcases m with ⟨a, b⟩
      simp only [replayLegal] at h
      by_cases hl : legalMove s a b
      · rw [if_pos hl] at h
        simp only [replayMoves]
        cases hmv : moveDisk s a b with
        | none => rw [hmv] at h; simp at h
        | some s2 =>
            rw [hmv] at h
            exact ih s2 h
      · rw [if_neg hl] at h
        simp at h

theorem initState_sorted (N : ℕ) : ∀ i, List.Chain' (· > ·) (initState N i) := by
  intro i
  unfold initState
  by_cases h : i = 0
  · rw [if_pos h]; exact ramp_sorted N
  · rw [if_neg h]; exact List.chain'_nil

/-- C3: for every `N ≥ 1`, starting from all `N` disks stacked on
peg 0 (largest at the bottom) and applying each generated move in
order by pop-from-source / push-to-destination, the final state has
all `N` disks on peg 2 ordered largest-at-bottom (the stack is the
strictly decreasing list `[N-1, ..., 1, 0]` from bottom to top) and
pegs 0 and 1 empty. -/
theorem replay_reaches_goal (N : ℕ) (_hN : 1 ≤ N) :
    ∃ f, replayMoves (initState N) (hanoi_moves N 0 1 2) = some f ∧
      f 0 = [] ∧ f 1 = [] ∧ f 2 = ramp N ∧ (f 2).length = N ∧
      List.Chain' (· > ·) (f 2) := by
  have h := hanoi_replay N 0 1 2 (by decide) (by decide) (by decide)
    (initState N) [] [] [] rfl rfl rfl (by simp) (by simp) (by simp)
  refine ⟨_, replayMoves_eq_of_legal _ _ _ h, rfl, rfl, rfl, ?_, ?_⟩
  · show ([] ++ ramp N).length = N
    simp [ramp_length]
  · show List.Chain' (· > ·) ([] ++ ramp N)
    simpa using ramp_sorted N

/-- C4: for every `N ≥ 1` and every prefix `p` of the generated
move sequence, the legality-checked replay of `p` from the initial
all-on-peg-0 state succeeds (so no pop ever hit an empty stack and no
disk was ever placed on a strictly smaller one along the way), the
reached intermediate state has every peg sorted strictly decreasing
in size from bottom to top, and the next move (when one remains) pops
a non-empty stack and is itself legal. -/
theorem replay_legal_invariant (N : ℕ) (_hN : 1 ≤ N)
    (p q : List (Fin 3 × Fin 3)) (hpq : p ++ q = hanoi_moves N 0 1 2) :
    ∃ s, replayLegal (initState N) p = some s ∧
      (∀ i, List.Chain' (· > ·) (s i)) ∧
      ∀ a b q2, q = (a, b) :: q2 → legalMove s a b ∧ s a ≠ [] := by
  have h := hanoi_replay N 0 1 2 (by decide) (by decide) (by decide)
    (initState N) [] [] [] rfl rfl rfl (by simp) (by simp) (by simp)
  rw [← hpq, replayLegal_append] at h
  cases hp : replayLegal (initState N) p with
  | none => rw [hp] at h; simp at h
  | some s =>
      rw [hp] at h
      refine ⟨s, rfl,
        replayLegal_sorted p (initState N) s (initState_sorted N) hp, ?_⟩
      intro a b q2 hq
      rw [hq] at h
      have h' : replayLegal s ((a, b) :: q2) =
          some (fun i => if i = 0 then [] else if i = 1 then []
            else [] ++ ramp N) := h
      simp only [replayLegal] at h'
      by_cases hl : legalMove s a b
      · refine ⟨hl, ?_⟩
        obtain ⟨d, hd, -⟩ := (legalMove_iff s a b).mp hl
        intro hnil
        rw [hnil] at hd
        simp at hd
      · rw [if_neg hl] at h'
        simp at h'

/-- Witness for C3: the full replay at `N = 3`. -/
theorem replay_reaches_goal_witness :
    ∃ f, replayMoves (initState 3) (hanoi_moves 3 0 1 2) = some f ∧
      f 0 = [] ∧ f 1 = [] ∧ f 2 = ramp 3 ∧ (f 2).length = 3 ∧
      List.Chain' (· > ·) (f 2) :=
  replay_reaches_goal 3 (by decide)

/-- Witness for C4: the prefix consisting of the first move at
`N = 3`. -/
theorem replay_legal_invariant_witness :
    ∃ s, replayLegal (initState 3) [((0 : Fin 3), (2 : Fin 3))] = some s ∧
      (∀ i, List.Chain' (· > ·) (s i)) ∧
      ∀ a b q2, [((0 : Fin 3), (1 : Fin 3)), (2, 1), (0, 2), (1, 0), (1, 2), (0, 2)] =
          (a, b) :: q2 → legalMove s a b ∧ s a ≠ [] :=
  replay_legal_invariant 3 (by decide) [(0, 2)]
    [(0, 1), (2, 1), (0, 2), (1, 0), (1, 2), (0, 2)] (by decide)
